import Mathlib

/-!
Verification development for the voxel chunk-streaming and surface-extraction
core in src/world.rs (with src/main.rs as driver).

The Rust code is shallowly embedded:
  - i32 coordinates become ℤ (the generation loop only produces in-range
    values, so wrap-around is not modelled; the one place the code casts a
    possibly-negative i32 to usize is modelled faithfully by usizeCast);
  - f32 and f64 values (noise heights, camera position, distances) become ℚ,
    with the noise map kept abstract as a function argument;
  - HashMap becomes an association list with lookup, insert (replacing) and
    remove operations;
  - the rayon parallel loop in Chunk::gen_blocks, whose tasks insert into one
    mutex-guarded map, is embedded as a fold over an arbitrary list of cell
    indices: the list stands for the serialization order of the mutex, and
    determinism over all orders is proved (claim C4);
  - Rust object identity is modelled by an id field on Chunk: a fresh id is
    drawn from an allocation counter whenever the code calls clone().
-/

namespace MC

/-- Model of bevy IVec2 (used for chunk positions). -/
structure IVec2 where
  x : ℤ
  y : ℤ
deriving DecidableEq, Repr

/-- Model of bevy IVec3 (used for block positions). -/
structure IVec3 where
  x : ℤ
  y : ℤ
  z : ℤ
deriving DecidableEq, Repr

/-- Componentwise sum of two IVec3 values. -/
def addv (p q : IVec3) : IVec3 := ⟨p.x + q.x, p.y + q.y, p.z + q.z⟩

/-- world.rs lines 37-44: the closed block-type enumeration. -/
inductive BlockType where
  | Grass
  | Dirt
  | Stone
  | Water
  | Air
deriving DecidableEq, Repr

/-- world.rs lines 22-26: a block is a mesh handle plus a type.  The bevy
Handle is modelled as a ℕ asset id. -/
structure Block where
  mesh : ℕ
  btype : BlockType
deriving DecidableEq, Repr

/-- world.rs lines 29-34: Block::new uses the default (null) mesh handle. -/
def Block.new (b : BlockType) : Block := ⟨0, b⟩

/-- world.rs line 15. -/
def CHUNK_SIZE : ℤ := 32

/-- world.rs line 18 (in chunks). -/
def RENDER_DISTANCE : ℤ := 3

/-- world.rs line 19. -/
def WATER_LEVEL : ℤ := 7

/-- world.rs line 17: BLOCK_SIZE = Vec3::new(1.0, 1.0, 1.0). -/
def BLOCK_SIZE : ℚ × ℚ × ℚ := (1, 1, 1)

/-- HashMap.get: first binding of the key in the association list. -/
def lookupA {α β : Type} [DecidableEq α] (k : α) : List (α × β) → Option β
  | [] => none
  | e :: rest => if k = e.1 then some e.2 else lookupA k rest

/-- HashMap.remove: drop every binding of the key. -/
def removeA {α β : Type} [DecidableEq α] (k : α) : List (α × β) → List (α × β)
  | [] => []
  | e :: rest => if e.1 = k then removeA k rest else e :: removeA k rest

/-- HashMap.insert: bind the key to the value, replacing any old binding. -/
def insertA {α β : Type} [DecidableEq α] (k : α) (v : β) (l : List (α × β)) :
    List (α × β) := (k, v) :: removeA k l

/-- Rust `as usize` on an i32 value: identity on non-negative values,
wrap-around modulo 2^64 on negative ones (usize is 64-bit here).  This is the
cast applied to the world column coordinates before sampling the noise map in
world.rs line 111. -/
def usizeCast (n : ℤ) : ℕ := if 0 ≤ n then n.toNat else (2 ^ 64 + n).toNat

/-- world.rs lines 111-112: `noise.get_value((x + offset.x) as usize,
(z + offset.z) as usize) * CHUNK_SIZE as f64`.  The NoiseMap is abstract: any
function from usize pairs to values. -/
def heightAt (noise : ℕ → ℕ → ℚ) (wx wz : ℤ) : ℚ :=
  noise (usizeCast wx) (usizeCast wz) * 32

/-- world.rs lines 119-125: the depth-band classification used for solid
blocks.  Note the bands compare the absolute world layer y, not the distance
below the column height. -/
def bandBlock (y : ℤ) : Block :=
  Block.new
    (if y < 4 then BlockType.Stone
     else if y < 7 then BlockType.Dirt
     else BlockType.Grass)

/-- world.rs lines 107-130: the body of the parallel generation loop for one
cell index i of 0..CHUNK_SIZE³, returning the key-value pair it inserts into
the shared map, if any.  cpos is self.position, giving offset
(cpos.x, 0, cpos.y). -/
def cellOut (noise : ℕ → ℕ → ℚ) (cpos : IVec2) (i : ℕ) :
    Option (IVec3 × Block) :=
  let x : ℤ := ((i % 32 : ℕ) : ℤ)
  let z : ℤ := (((i / 32) % 32 : ℕ) : ℤ)
  let y : ℤ := ((i / (32 * 32) : ℕ) : ℤ)
  let offset : IVec3 := ⟨cpos.x, 0, cpos.y⟩
  let height := heightAt noise (x + offset.x) (z + offset.z)
  let bp : IVec3 := ⟨x + offset.x, y + offset.y, z + offset.z⟩
  if (y : ℚ) < |height| then some (bp, bandBlock y)
  else if y = WATER_LEVEL then some (bp, Block.new BlockType.Water)
  else none

/-- Chunk::gen_blocks run with a given serialization order of the parallel
tasks: each task locks the shared map and inserts its cell, so the final map
is a fold of insertions over some permutation of the cell indices. -/
def gen_blocksRun (noise : ℕ → ℕ → ℚ) (cpos : IVec2) (order : List ℕ) :
    List (IVec3 × Block) :=
  order.foldl
    (fun m i =>
      match cellOut noise cpos i with
      | some kv => insertA kv.1 kv.2 m
      | none => m)
    []

/-- world.rs lines 99-135: Chunk::gen_blocks (the canonical in-order run over
all CHUNK_SIZE³ cells). -/
def gen_blocks (noise : ℕ → ℕ → ℚ) (cpos : IVec2) : List (IVec3 × Block) :=
  gen_blocksRun noise cpos (List.range (32 * 32 * 32))

/-- Closed form of the value gen_blocks stores at world coordinate k:
read off from world.rs lines 111-130 with x + offset.x = k.x,
y = k.y (offset.y is 0) and z + offset.z = k.z. -/
def valAt (noise : ℕ → ℕ → ℚ) (k : IVec3) : Option Block :=
  if (k.y : ℚ) < |heightAt noise k.x k.z| then some (bandBlock k.y)
  else if k.y = WATER_LEVEL then some (Block.new BlockType.Water)
  else none

/-- The local bounds of the region generated for chunk position cpos: the
32×32×32 box of world coordinates covered by the generation loop. -/
def inChunk (cpos : IVec2) (k : IVec3) : Prop :=
  cpos.x ≤ k.x ∧ k.x < cpos.x + 32 ∧ 0 ≤ k.y ∧ k.y < 32 ∧
    cpos.y ≤ k.z ∧ k.z < cpos.y + 32

instance (cpos : IVec2) (k : IVec3) : Decidable (inChunk cpos k) := by
  unfold inChunk
  infer_instance

/-- The loop index of the generation task that writes world coordinate k of
chunk cpos (inverting x = i mod 32, z = i div 32 mod 32, y = i div 1024). -/
def localIndex (cpos : IVec2) (k : IVec3) : ℕ :=
  (k.x - cpos.x).toNat + 32 * (k.z - cpos.y).toNat + 32 * 32 * k.y.toNat

/-- world.rs lines 151-158: the six neighbor cells tested for a block, in
source order (-x, -y, -z, +x, +y, +z). -/
def surrounding (p : IVec3) : List IVec3 :=
  [⟨p.x - 1, p.y, p.z⟩, ⟨p.x, p.y - 1, p.z⟩, ⟨p.x, p.y, p.z - 1⟩,
   ⟨p.x + 1, p.y, p.z⟩, ⟨p.x, p.y + 1, p.z⟩, ⟨p.x, p.y, p.z + 1⟩]

/-- world.rs lines 160-165: a block is buried when all six neighbor cells are
keys of the block map. -/
def buriedB (m : List (IVec3 × Block)) (p : IVec3) : Bool :=
  (surrounding p).all (fun q => (lookupA q m).isSome)

/-- The six axis directions of a cube face. -/
inductive Dir where
  | negX
  | negY
  | negZ
  | posX
  | posY
  | posZ
deriving DecidableEq, Repr

/-- The unit step of each axis direction. -/
def step : Dir → IVec3
  | Dir.negX => ⟨-1, 0, 0⟩
  | Dir.negY => ⟨0, -1, 0⟩
  | Dir.negZ => ⟨0, 0, -1⟩
  | Dir.posX => ⟨1, 0, 0⟩
  | Dir.posY => ⟨0, 1, 0⟩
  | Dir.posZ => ⟨0, 0, 1⟩

/-- All six directions, in the order of the surrounding list. -/
def allDirs : List Dir :=
  [Dir.negX, Dir.negY, Dir.negZ, Dir.posX, Dir.posY, Dir.posZ]

/-- world.rs lines 183-190: the fixed 36-entry index buffer emitted for every
visible block (six faces of two triangles each). -/
def block_indices : List ℕ :=
  [0, 1, 3, 3, 1, 2,
   1, 5, 2, 2, 5, 6,
   5, 4, 6, 6, 4, 7,
   4, 0, 7, 7, 0, 3,
   3, 2, 7, 7, 2, 6,
   4, 5, 0, 0, 5, 1]

/-- world.rs lines 193-224: the 24 vertex positions (four per face), each at
offset ±1 from the block position on every axis. -/
def block_vertices (c : ℚ × ℚ × ℚ) : List (ℚ × ℚ × ℚ) :=
  [(c.1 - 1, c.2.1 - 1, c.2.2 + 1), (c.1 + 1, c.2.1 - 1, c.2.2 + 1),
   (c.1 + 1, c.2.1 + 1, c.2.2 + 1), (c.1 - 1, c.2.1 + 1, c.2.2 + 1),
   (c.1 - 1, c.2.1 - 1, c.2.2 - 1), (c.1 + 1, c.2.1 - 1, c.2.2 - 1),
   (c.1 + 1, c.2.1 + 1, c.2.2 - 1), (c.1 - 1, c.2.1 + 1, c.2.2 - 1),
   (c.1 - 1, c.2.1 - 1, c.2.2 - 1), (c.1 - 1, c.2.1 - 1, c.2.2 + 1),
   (c.1 - 1, c.2.1 + 1, c.2.2 + 1), (c.1 - 1, c.2.1 + 1, c.2.2 - 1),
   (c.1 + 1, c.2.1 - 1, c.2.2 - 1), (c.1 + 1, c.2.1 - 1, c.2.2 + 1),
   (c.1 + 1, c.2.1 + 1, c.2.2 + 1), (c.1 + 1, c.2.1 + 1, c.2.2 - 1),
   (c.1 - 1, c.2.1 + 1, c.2.2 - 1), (c.1 + 1, c.2.1 + 1, c.2.2 - 1),
   (c.1 + 1, c.2.1 + 1, c.2.2 + 1), (c.1 - 1, c.2.1 + 1, c.2.2 + 1),
   (c.1 - 1, c.2.1 - 1, c.2.2 - 1), (c.1 + 1, c.2.1 - 1, c.2.2 - 1),
   (c.1 + 1, c.2.1 - 1, c.2.2 + 1), (c.1 - 1, c.2.1 - 1, c.2.2 + 1)]

/-- world.rs lines 226-369: the per-face texture atlas cells of each block
type, four equal entries per face (written with replicate instead of the 24
repeated literals of the source). -/
def texture_indices : BlockType → List (ℕ × ℕ)
  | BlockType.Grass =>
      List.replicate 4 (1, 10) ++ List.replicate 4 (4, 8) ++
        List.replicate 4 (3, 5) ++ List.replicate 4 (2, 9) ++
        List.replicate 4 (16, 1) ++ List.replicate 4 (15, 5)
  | BlockType.Dirt => List.replicate 16 (3, 5) ++ List.replicate 8 (15, 5)
  | BlockType.Stone =>
      List.replicate 16 (14, 3) ++ List.replicate 4 (13, 1) ++
        List.replicate 4 (12, 3)
  | BlockType.Water => List.replicate 24 (0, 0)
  | BlockType.Air => List.replicate 24 (4, 15)

/-- world.rs lines 374-380: atlas cells scaled by 1/16 into UV space. -/
def uv_coords (b : BlockType) : List (ℚ × ℚ) :=
  (texture_indices b).map (fun t => ((t.1 : ℚ) / 16, (t.2 : ℚ) / 16))

/-- world.rs lines 382-385: one constant up normal per vertex. -/
def normalsList : List (ℚ × ℚ × ℚ) := List.replicate 24 (0, 1, 0)

/-- The data of one per-block mesh: positions, normals, UV coordinates and
triangle indices. -/
structure BMesh where
  positions : List (ℚ × ℚ × ℚ)
  normals : List (ℚ × ℚ × ℚ)
  uvs : List (ℚ × ℚ)
  indices : List ℕ
deriving DecidableEq, Repr

/-- An integer position as a mesh-space point (block.0.as_vec3()). -/
def asVec3 (p : IVec3) : ℚ × ℚ × ℚ := ((p.x : ℚ), (p.y : ℚ), (p.z : ℚ))

/-- world.rs lines 143-224 and 382-392: the mesh Chunk::gen_meshes produces
for block p of block map m, if any.  A block produces a mesh iff it is a key
of the map, is not Air, and is not buried; the produced mesh is always the
complete 24-vertex, 36-index cube, whichever neighbors are present (per-face
culling is not performed; see the source comment at world.rs line 192). -/
def meshFor (m : List (IVec3 × Block)) (p : IVec3) : Option BMesh :=
  match lookupA p m with
  | none => none
  | some b =>
      if b.btype ≠ BlockType.Air ∧ ¬ buriedB m p then
        some ⟨block_vertices (asVec3 p), normalsList, uv_coords b.btype,
          block_indices⟩
      else none

/-- The face directions for which extraction emits a quad for block p: the
emitted buffer always contains all six face groups of block_indices, so a
meshed block emits every direction and an unmeshed block none. -/
def emittedDirs (m : List (IVec3 × Block)) (p : IVec3) : List Dir :=
  match meshFor m p with
  | some _ => allDirs
  | none => []

/-- The six-index group of each face inside block_indices, as labelled by the
source comments at world.rs lines 184-189 (Front is +z, Right is +x, Back is
-z, Left is -x, Top is +y, Bottom is -y). -/
def faceIndices : Dir → List ℕ
  | Dir.posZ => [0, 1, 3, 3, 1, 2]
  | Dir.posX => [1, 5, 2, 2, 5, 6]
  | Dir.negZ => [5, 4, 6, 6, 4, 7]
  | Dir.negX => [4, 0, 7, 7, 0, 3]
  | Dir.posY => [3, 2, 7, 7, 2, 6]
  | Dir.negY => [4, 5, 0, 0, 5, 1]

/-- The per-face fan pattern asserted by the specification: face f of the
buffer uses indices 4f + {0,1,3,3,1,2} into its own group of four
vertices. -/
def FanPattern (l : List ℕ) : Prop :=
  ∀ f : ℕ, f < 6 → ∀ j : ℕ, j < 6 →
    l.get? (6 * f + j) = some (4 * f + [0, 1, 3, 3, 1, 2].getD j 0)

/-- world.rs lines 547-551: the spawn translation of a block entity is its
integer block position cast to f32, so adjacent blocks sit one unit apart. -/
def spawnTranslation (p : IVec3) : ℚ × ℚ × ℚ := asVec3 p

/-- Taxicab distance between two mesh-space points. -/
def dist1Q (a b : ℚ × ℚ × ℚ) : ℚ :=
  |a.1 - b.1| + |a.2.1 - b.2.1| + |a.2.2 - b.2.2|

/-- Two adjacent solid blocks (used against claim C1). -/
def twoBlockMap : List (IVec3 × Block) :=
  [(⟨0, 0, 0⟩, Block.new BlockType.Grass),
   (⟨1, 0, 0⟩, Block.new BlockType.Grass)]

/-- A single isolated solid block. -/
def oneBlockMap : List (IVec3 × Block) := [(⟨0, 0, 0⟩, Block.new BlockType.Grass)]

/-- The mesh extraction produces for the single isolated block. -/
def oneBlockMesh : BMesh :=
  ⟨block_vertices (asVec3 ⟨0, 0, 0⟩), normalsList, uv_coords BlockType.Grass,
    block_indices⟩

/-- A solid block whose six neighbors are all solid. -/
def sevenBlockMap : List (IVec3 × Block) :=
  (⟨0, 0, 0⟩, Block.new BlockType.Stone) ::
    (surrounding ⟨0, 0, 0⟩).map (fun q => (q, Block.new BlockType.Stone))

/-- world.rs lines 85-97: a chunk is a block map plus its chunk position (in
world units).  The id field models Rust object identity: a fresh id is drawn
from the allocation counter of the state whenever Chunk::new or clone()
produces a new object, while moving a chunk between maps keeps its id. -/
structure Chunk where
  id : ℕ
  blocks : List (IVec3 × Block)
  position : IVec2
deriving DecidableEq, Repr

/-- world.rs lines 409-415: the mutable part of the Map resource (the noise
map is passed to the generator separately and the atlas handle plays no role
here), together with the identity allocation counter. -/
structure GameMap where
  chunks : List (IVec2 × Chunk)
  cache : List (IVec2 × Chunk)
  nextId : ℕ
deriving DecidableEq, Repr

/-- world.rs line 459: the radius used to demote active chunks,
(CHUNK_SIZE * RENDER_DISTANCE) as f32 = 96 world units. -/
def demoteRadius : ℚ := ((CHUNK_SIZE * RENDER_DISTANCE : ℤ) : ℚ)

/-- world.rs line 476: the radius used to retain cached chunks, the same
(CHUNK_SIZE * RENDER_DISTANCE) as f32 expression. -/
def retainRadius : ℚ := ((CHUNK_SIZE * RENDER_DISTANCE : ℤ) : ℚ)

/-- Squared euclidean distance between a chunk key (world units) and the
camera (x, z) position, modelling (chunk_pos.as_vec2() - pos).length(). -/
def distSq (c : IVec2) (pos : ℚ × ℚ) : ℚ :=
  ((c.x : ℚ) - pos.1) ^ 2 + ((c.y : ℚ) - pos.2) ^ 2

/-- world.rs lines 458-459: distance > 96.0, stated on squares. -/
def isFarDemote (pos : ℚ × ℚ) (c : IVec2) : Prop :=
  demoteRadius ^ 2 < distSq c pos

/-- world.rs lines 475-476: the eviction test of the cache retain call. -/
def isFarRetain (pos : ℚ × ℚ) (c : IVec2) : Prop :=
  retainRadius ^ 2 < distSq c pos

instance (pos : ℚ × ℚ) (c : IVec2) : Decidable (isFarDemote pos c) := by
  unfold isFarDemote
  infer_instance

instance (pos : ℚ × ℚ) (c : IVec2) : Decidable (isFarRetain pos c) := by
  unfold isFarRetain
  infer_instance

/-- Rust clone() of a chunk: a fresh object with the same contents. -/
def cloneChunk (ch : Chunk) (n : ℕ) : Chunk := ⟨n, ch.blocks, ch.position⟩

/-- world.rs line 468: cache.insert of the clone; this is the state between
line 468 and line 469, where the coordinate is present in both maps. -/
def demoteInsertPhase (c : IVec2) (ch : Chunk) (st : GameMap) : GameMap :=
  { st with
    cache := insertA c (cloneChunk ch st.nextId) st.cache
    nextId := st.nextId + 1 }

/-- world.rs line 469: chunks.remove. -/
def demoteRemovePhase (c : IVec2) (st : GameMap) : GameMap :=
  { st with chunks := removeA c st.chunks }

/-- world.rs lines 465-471: the body of the demotion loop for one collected
far key. -/
def demoteKey (st : GameMap) (c : IVec2) : GameMap :=
  if (lookupA c st.cache).isSome then st
  else
    match lookupA c st.chunks with
    | some ch => demoteRemovePhase c (demoteInsertPhase c ch st)
    | none => st

/-- world.rs lines 454-462: the far active chunk keys collected before the
demotion loop. -/
def farChunkKeys (pos : ℚ × ℚ) (st : GameMap) : List IVec2 :=
  (st.chunks.map Prod.fst).filter (fun c => decide (isFarDemote pos c))

/-- world.rs lines 454-471: demote every far active chunk into the cache. -/
def demoteStep (pos : ℚ × ℚ) (st : GameMap) : GameMap :=
  (farChunkKeys pos st).foldl demoteKey st

/-- world.rs lines 474-482: drop far entries from the cache. -/
def retainStep (pos : ℚ × ℚ) (st : GameMap) : GameMap :=
  { st with
    cache := st.cache.filter (fun e => decide (¬ isFarRetain pos e.1)) }

/-- world.rs lines 492-495: the player chunk position in world units,
floor(pos / CHUNK_SIZE) * CHUNK_SIZE on each axis. -/
def playerChunkPos (pos : ℚ × ℚ) : IVec2 :=
  ⟨⌊pos.1 / 32⌋ * 32, ⌊pos.2 / 32⌋ * 32⟩

/-- world.rs lines 498-508: the player chunk and its eight neighbors, in
source order. -/
def candList (pp : IVec2) : List IVec2 :=
  [pp, ⟨pp.x + 32, pp.y⟩, ⟨pp.x, pp.y + 32⟩, ⟨pp.x + 32, pp.y + 32⟩,
   ⟨pp.x - 32, pp.y⟩, ⟨pp.x, pp.y - 32⟩, ⟨pp.x - 32, pp.y - 32⟩,
   ⟨pp.x - 32, pp.y + 32⟩, ⟨pp.x + 32, pp.y - 32⟩]

/-- world.rs lines 516-533: the body of the load loop for one candidate:
skip any coordinate with a negative component (the usize workaround noted at
world.rs lines 517-520), move a cached chunk back as a clone, and otherwise
generate a fresh chunk with the supplied block generator (which abstracts
Chunk::new, gen_blocks and gen_meshes). -/
def loadKey (gen : IVec2 → List (IVec3 × Block)) (st : GameMap) (c : IVec2) :
    GameMap :=
  if c.x < 0 ∨ c.y < 0 then st
  else if (lookupA c st.chunks).isSome then st
  else
    match lookupA c st.cache with
    | some ch =>
        { chunks := insertA c (cloneChunk ch st.nextId) st.chunks
          cache := removeA c st.cache
          nextId := st.nextId + 1 }
    | none =>
        { st with
          chunks := insertA c ⟨st.nextId, gen c, c⟩ st.chunks
          nextId := st.nextId + 1 }

/-- world.rs lines 491-533: load the nine candidates not already active. -/
def loadStep (gen : IVec2 → List (IVec3 × Block)) (pos : ℚ × ℚ)
    (st : GameMap) : GameMap :=
  ((candList (playerChunkPos pos)).filter
    (fun c => !(lookupA c st.chunks).isSome)).foldl (loadKey gen) st

/-- world.rs lines 441-558: one update_world step over the map state (the
spawning and despawning of render entities is outside the model). -/
def update_world (gen : IVec2 → List (IVec3 × Block)) (pos : ℚ × ℚ)
    (st : GameMap) : GameMap :=
  loadStep gen pos (retainStep pos (demoteStep pos st))

/-- State exclusivity: an active coordinate is never also cached. -/
def ExclusiveS (st : GameMap) : Prop :=
  ∀ k : IVec2, lookupA k st.chunks ≠ none → lookupA k st.cache = none

/-- The trivial block generator used at concrete witness inputs. -/
def genZero : IVec2 → List (IVec3 × Block) := fun _ => []

/-- The empty world state. -/
def emptyState : GameMap := ⟨[], [], 0⟩

/-- One chunk sitting 128 world units from the origin. -/
def farChunk : Chunk := ⟨0, [], ⟨128, 0⟩⟩

/-- A state with one active far chunk. -/
def farState : GameMap := ⟨[(⟨128, 0⟩, farChunk)], [], 1⟩

/-- A cached chunk at the origin. -/
def cachedChunk : Chunk :=
  ⟨0, [(⟨0, 0, 0⟩, Block.new BlockType.Stone)], ⟨0, 0⟩⟩

/-- A state whose cache holds cachedChunk at the origin coordinate. -/
def cachedState : GameMap := ⟨[], [(⟨0, 0⟩, cachedChunk)], 1⟩

theorem lookupA_nil {α β : Type} [DecidableEq α] (k : α) :
    lookupA (β := β) k [] = none := rfl

theorem lookupA_removeA {α β : Type} [DecidableEq α] (k k2 : α)
    (l : List (α × β)) :
    lookupA k (removeA k2 l) = if k = k2 then none else lookupA k l := by
  induction l with
  | nil => simp [removeA, lookupA]
  | cons e rest ih =>
    by_cases h1 : e.1 = k2
    · subst h1
      by_cases h2 : k = e.1
      · subst h2
        simp [removeA, lookupA, ih]
      · simp [removeA, lookupA, h2, ih]
    · by_cases h2 : k = e.1
      · subst h2
        simp [removeA, lookupA, h1]
      · simp [removeA, lookupA, h1, h2, ih]

theorem lookupA_insertA {α β : Type} [DecidableEq α] (k k2 : α) (v : β)
    (l : List (α × β)) :
    lookupA k (insertA k2 v l) = if k = k2 then some v else lookupA k l := by
  by_cases h : k = k2 <;> simp [insertA, lookupA, lookupA_removeA, h]

theorem lookupA_filter_drop {α β : Type} [DecidableEq α] (k : α)
    (p : α → Bool) (l : List (α × β)) (hp : p k = false) :
    lookupA k (l.filter (fun e => p e.1)) = none := by
  induction l with
  | nil => rfl
  | cons e rest ih =>
    by_cases h1 : p e.1
    · have hne : k ≠ e.1 := by
        intro h
        rw [h, h1] at hp
        exact Bool.true_eq_false.mp hp
      simp [List.filter, h1, lookupA, hne, ih]
    · simp [List.filter, Bool.of_not_eq_true h1, ih]

theorem lookupA_filter_keep {α β : Type} [DecidableEq α] (k : α)
    (p : α → Bool) (l : List (α × β)) (hp : p k = true) :
    lookupA k (l.filter (fun e => p e.1)) = lookupA k l := by
  induction l with
  | nil => rfl
  | cons e rest ih =>
    by_cases h2 : k = e.1
    · subst h2
      simp [List.filter, hp, lookupA, ih]
    · by_cases h1 : p e.1
      · simp [List.filter, h1, lookupA, h2, ih]
      · simp [List.filter, Bool.of_not_eq_true h1, lookupA, h2, ih]

theorem lookupA_mem_keys {α β : Type} [DecidableEq α] (k : α)
    (l : List (α × β)) (h : lookupA k l ≠ none) : k ∈ l.map Prod.fst := by
  induction l with
  | nil => simp [lookupA] at h
  | cons e rest ih =>
    by_cases h2 : k = e.1
    · simp [h2]
    · simp [lookupA, h2] at h
      simp [ih h]

theorem cellOut_val {noise : ℕ → ℕ → ℚ} {cpos : IVec2} {i : ℕ} {k : IVec3}
    {v : Block} (h : cellOut noise cpos i = some (k, v)) :
    valAt noise k = some v := by
  simp only [cellOut] at h
  split at h
  case isTrue h1 =>
    injection h with h3
    injection h3 with hk hv
    subst hk
    subst hv
    simp only [valAt, add_zero]
    rw [if_pos h1]
  case isFalse h1 =>
    split at h
    case isTrue h2 =>
      injection h with h3
      injection h3 with hk hv
      subst hk
      subst hv
      simp only [valAt, add_zero]
      rw [if_neg h1, if_pos h2]
    case isFalse h2 => exact absurd h (by simp)

open Classical in
theorem gen_blocksRun_lookup (noise : ℕ → ℕ → ℚ) (cpos : IVec2)
    (order : List ℕ) (k : IVec3) :
    lookupA k (gen_blocksRun noise cpos order) =
      if (∃ i ∈ order, ∃ v, cellOut noise cpos i = some (k, v)) then
        valAt noise k
      else none := by
  suffices h : ∀ (l : List ℕ) (m : List (IVec3 × Block)),
      lookupA k (l.foldl
        (fun m i =>
          match cellOut noise cpos i with
          | some kv => insertA kv.1 kv.2 m
          | none => m) m) =
        if (∃ i ∈ l, ∃ v, cellOut noise cpos i = some (k, v)) then
          valAt noise k
        else lookupA k m by
    simpa [gen_blocksRun] using h order []
  intro l
  induction l with
  | nil => simp
  | cons i rest ih =>
    intro m
    rcases hc : cellOut noise cpos i with _ | ⟨k2, v2⟩
    · simp only [List.foldl_cons, hc]
      rw [ih]
      by_cases hr : (∃ j ∈ rest, ∃ v, cellOut noise cpos j = some (k, v))
      · rw [if_pos hr, if_pos (by
          obtain ⟨j, hj, hv⟩ := hr
          exact ⟨j, List.mem_cons_of_mem _ hj, hv⟩)]
      · rw [if_neg hr, if_neg (by
          rintro ⟨j, hj, v, hv⟩
          rcases List.mem_cons.mp hj with rfl | hj2
          · rw [hv] at hc
            exact absurd hc (by simp)
          · exact hr ⟨j, hj2, v, hv⟩)]
    · simp only [List.foldl_cons, hc]
      rw [ih]
      by_cases hr : (∃ j ∈ rest, ∃ v, cellOut noise cpos j = some (k, v))
      · rw [if_pos hr, if_pos (by
          obtain ⟨j, hj, hv⟩ := hr
          exact ⟨j, List.mem_cons_of_mem _ hj, hv⟩)]
      · rw [if_neg hr]
        by_cases hk : k = k2
        · subst hk
          rw [lookupA_insertA, if_pos rfl, cellOut_val (k := k) (v := v2) hc,
            if_pos ⟨i, List.mem_cons_self .., v2, hc⟩]
        · rw [lookupA_insertA, if_neg hk, if_neg (by
            rintro ⟨j, hj, v, hv⟩
            rcases List.mem_cons.mp hj with rfl | hj2
            · rw [hv] at hc
              injection hc with hc2
              injection hc2 with hk2 hv2
              exact hk hk2
            · exact hr ⟨j, hj2, v, hv⟩)]

theorem cellOut_localIndex (noise : ℕ → ℕ → ℚ) (cpos : IVec2) (k : IVec3)
    (h : inChunk cpos k) :
    cellOut noise cpos (localIndex cpos k) =
      (valAt noise k).map (fun v => (k, v)) := by
  obtain ⟨h1, h2, h3, h4, h5, h6⟩ := h
  have ha : ((k.x - cpos.x).toNat : ℤ) = k.x - cpos.x :=
    Int.toNat_of_nonneg (by omega)
  have hb : ((k.z - cpos.y).toNat : ℤ) = k.z - cpos.y :=
    Int.toNat_of_nonneg (by omega)
  have hc : (k.y.toNat : ℤ) = k.y := Int.toNat_of_nonneg h3
  have ha2 : (k.x - cpos.x).toNat < 32 := by omega
  have hb2 : (k.z - cpos.y).toNat < 32 := by omega
  have hc2 : k.y.toNat < 32 := by omega
  have hx : localIndex cpos k % 32 = (k.x - cpos.x).toNat := by
    simp only [localIndex]; omega
  have hz : localIndex cpos k / 32 % 32 = (k.z - cpos.y).toNat := by
    simp only [localIndex]; omega
  have hy : localIndex cpos k / (32 * 32) = k.y.toNat := by
    simp only [localIndex]; omega
  simp only [cellOut, hx, hz, hy, ha, hb, hc, valAt]
  have hxx : k.x - cpos.x + cpos.x = k.x := by ring
  have hzz : k.z - cpos.y + cpos.y = k.z := by ring
  rw [hxx, hzz, add_zero]
  by_cases hs : (k.y : ℚ) < |heightAt noise k.x k.z|
  · rw [if_pos hs, if_pos hs]
    rfl
  · rw [if_neg hs, if_neg hs]
    by_cases hw : k.y = WATER_LEVEL
    · rw [if_pos hw, if_pos hw]
      rfl
    · rw [if_neg hw, if_neg hw]
      rfl

theorem localIndex_lt (cpos : IVec2) (k : IVec3) (h : inChunk cpos k) :
    localIndex cpos k < 32 * 32 * 32 := by
  obtain ⟨h1, h2, h3, h4, h5, h6⟩ := h
  simp only [localIndex]
  omega

open Classical in
/-- C4. Determinism of generation under task ordering: Chunk::gen_blocks has
its parallel tasks insert into one mutex-guarded map, and any two
serialization orders of the same task set produce the same map (same keys
bound to the same blocks).  In particular, for a fixed noise map (fixed seed)
and a fixed chunk coordinate, two runs produce identical block sets. -/
theorem c4_gen_blocks_deterministic (noise : ℕ → ℕ → ℚ) (cpos : IVec2)
    (l1 l2 : List ℕ) (hp : l1.Perm l2) (k : IVec3) :
    lookupA k (gen_blocksRun noise cpos l1) =
      lookupA k (gen_blocksRun noise cpos l2) := by
  rw [gen_blocksRun_lookup, gen_blocksRun_lookup]
  have hiff : (∃ i ∈ l1, ∃ v, cellOut noise cpos i = some (k, v)) ↔
      (∃ i ∈ l2, ∃ v, cellOut noise cpos i = some (k, v)) := by
    constructor
    · rintro ⟨i, hi, v, hv⟩
      exact ⟨i, hp.mem_iff.mp hi, v, hv⟩
    · rintro ⟨i, hi, v, hv⟩
      exact ⟨i, hp.mem_iff.mpr hi, v, hv⟩
  rw [if_congr hiff rfl rfl]

/-- Witness for C4 at concrete inputs: the order [2,0,1] is a permutation of
[0,1,2] and both runs agree at the origin cell. -/
theorem c4_gen_blocks_deterministic_witness :
    List.Perm [0, 1, 2] [2, 0, 1] ∧
      lookupA ⟨0, 0, 0⟩ (gen_blocksRun (fun _ _ => 1) ⟨0, 0⟩ [0, 1, 2]) =
        lookupA ⟨0, 0, 0⟩ (gen_blocksRun (fun _ _ => 1) ⟨0, 0⟩ [2, 0, 1]) := by
  have hp : List.Perm [0, 1, 2] [2, 0, 1] :=
    List.Perm.trans (List.Perm.cons 0 (List.Perm.swap 2 1 []))
      (List.Perm.swap 0 2 [1]).symm
  exact ⟨hp, c4_gen_blocks_deterministic (fun _ _ => 1) ⟨0, 0⟩ _ _ hp ⟨0, 0, 0⟩⟩

/-- C6 (amended).  Inside the generated 32×32×32 box, the block stored at
world coordinate k is: a solid block when the layer k.y is below the absolute
column height, classified by the absolute-height bands y < 4 → Stone,
y < 7 → Dirt, otherwise Grass (thresholds hard-coded in world.rs lines
119-124, not read from configuration and not relative to the column height);
otherwise Water exactly when k.y = WATER_LEVEL, i.e. when the water level is
at least the absolute column height. -/
theorem c6_band_classification (noise : ℕ → ℕ → ℚ) (cpos : IVec2)
    (k : IVec3) (h : inChunk cpos k) :
    lookupA k (gen_blocks noise cpos) =
      if (k.y : ℚ) < |heightAt noise k.x k.z| then
        some (Block.new
          (if k.y < 4 then BlockType.Stone
           else if k.y < 7 then BlockType.Dirt
           else BlockType.Grass))
      else if k.y = WATER_LEVEL then some (Block.new BlockType.Water)
      else none := by
  change lookupA k (gen_blocks noise cpos) = valAt noise k
  rw [gen_blocks, gen_blocksRun_lookup]
  rcases hv : valAt noise k with _ | v
  · rw [if_neg (by
      rintro ⟨i, _, v, hcell⟩
      rw [cellOut_val hcell] at hv
      exact absurd hv (by simp))]
  · rw [if_pos ⟨localIndex cpos k,
      List.mem_range.mpr (localIndex_lt cpos k h), v, (by
        rw [cellOut_localIndex noise cpos k h, hv]
        rfl)⟩]

/-- Witness for C6 at a concrete input: the coordinate (3, 5, 4) lies in the
box of the chunk at (0, 0). -/
theorem c6_band_classification_witness :
    inChunk ⟨0, 0⟩ ⟨3, 5, 4⟩ ∧
      lookupA ⟨3, 5, 4⟩ (gen_blocks (fun _ _ => 1) ⟨0, 0⟩) =
        if ((5 : ℤ) : ℚ) < |heightAt (fun _ _ => 1) 3 4| then
          some (Block.new
            (if (5 : ℤ) < 4 then BlockType.Stone
             else if (5 : ℤ) < 7 then BlockType.Dirt
             else BlockType.Grass))
        else if (5 : ℤ) = WATER_LEVEL then some (Block.new BlockType.Water)
        else none :=
  ⟨by decide, c6_band_classification (fun _ _ => 1) ⟨0, 0⟩
    ⟨3, 5, 4⟩ (by decide)⟩

/-- C6 counterexample.  The claim says solid layers are classified by a
depth-band table relative to the column height, i.e. that the type of a solid block is a function of (height - y).  The code classifies by absolute y
instead: at depth 1 below a column of height 8 it stores Grass (y = 7), while
at depth 1 below a column of height 5 it stores Dirt (y = 4), so no such
function of the depth exists. -/
theorem c6_counterexample :
    ¬ ∃ f : ℚ → BlockType, ∀ (noise : ℕ → ℕ → ℚ) (k : IVec3) (b : Block),
      valAt noise k = some b → b.btype ≠ BlockType.Water →
        b.btype = f (|heightAt noise k.x k.z| - (k.y : ℚ)) := by
  rintro ⟨f, hf⟩
  have h1 : valAt (fun _ _ => (1 : ℚ)/4) ⟨0, 7, 0⟩ = some (bandBlock 7) := by
    simp only [valAt]
    rw [if_pos (by norm_num [heightAt])]
  have h2 : valAt (fun _ _ => (5 : ℚ)/32) ⟨0, 4, 0⟩ = some (bandBlock 4) := by
    simp only [valAt]
    rw [if_pos (by norm_num [heightAt])]
  have hA := hf (fun _ _ => (1 : ℚ)/4) ⟨0, 7, 0⟩ (bandBlock 7) h1 (by decide)
  have hB := hf (fun _ _ => (5 : ℚ)/32) ⟨0, 4, 0⟩ (bandBlock 4) h2 (by decide)
  rw [show |heightAt (fun _ _ => (1 : ℚ)/4) (IVec3.mk 0 7 0).x
      (IVec3.mk 0 7 0).z| - ((IVec3.mk 0 7 0).y : ℚ) = 1 from by
    norm_num [heightAt]] at hA
  rw [show |heightAt (fun _ _ => (5 : ℚ)/32) (IVec3.mk 0 4 0).x
      (IVec3.mk 0 4 0).z| - ((IVec3.mk 0 4 0).y : ℚ) = 1 from by
    norm_num [heightAt]] at hB
  rw [show (bandBlock 7).btype = BlockType.Grass from by decide] at hA
  rw [show (bandBlock 4).btype = BlockType.Dirt from by decide] at hB
  exact absurd (hA.trans hB.symm) (by decide)

theorem mem_allDirs (d : Dir) : d ∈ allDirs := by
  cases d <;> simp [allDirs]

theorem buriedB_false_iff (m : List (IVec3 × Block)) (p : IVec3) :
    buriedB m p = false ↔ ∃ q ∈ surrounding p, lookupA q m = none := by
  rw [← Bool.not_eq_true, buriedB, List.all_eq_true]
  push_neg
  constructor
  · rintro ⟨q, hq, hs⟩
    exact ⟨q, hq, Option.not_isSome_iff_eq_none.mp (by simp [hs])⟩
  · rintro ⟨q, hq, hs⟩
    exact ⟨q, hq, by simp [hs]⟩

/-- C1 (amended).  Face culling in Chunk::gen_meshes is per block, not per
face: a direction d is emitted for block p exactly when p is a solid (non
Air) key of the map and at least one of the six neighbors is absent, and in
that case every one of the six directions is emitted, including the ones
whose neighbor is present. -/
theorem c1_per_block_culling (m : List (IVec3 × Block)) (p : IVec3)
    (d : Dir) :
    d ∈ emittedDirs m p ↔
      ((∃ b, lookupA p m = some b ∧ b.btype ≠ BlockType.Air) ∧
        ∃ q ∈ surrounding p, lookupA q m = none) := by
  unfold emittedDirs meshFor
  rcases h : lookupA p m with _ | b
  · simp
  · dsimp only
    by_cases hb : b.btype = BlockType.Air
    · rw [if_neg (by simp [hb])]
      simp [hb]
    · by_cases hbur : buriedB m p
      · rw [if_neg (by simp [hbur])]
        simp only [List.not_mem_nil, false_iff, not_and]
        rintro - ⟨q, hq, hnone⟩
        rw [buriedB] at hbur
        have := List.all_eq_true.mp hbur q hq
        simp [hnone] at this
      · rw [if_pos ⟨hb, hbur⟩]
        simp only [mem_allDirs, true_iff]
        exact ⟨⟨b, rfl, hb⟩,
          (buriedB_false_iff m p).mp (Bool.not_eq_true _ ▸ hbur)⟩

/-- C1 counterexample.  In the map with solid blocks at (0,0,0) and (1,0,0),
the face of (0,0,0) toward +x is emitted even though the +x neighbor is
present, refuting the claimed per-direction equivalence. -/
theorem c1_counterexample :
    ¬ ((Dir.posX ∈ emittedDirs twoBlockMap ⟨0, 0, 0⟩) ↔
        lookupA (addv ⟨0, 0, 0⟩ (step Dir.posX)) twoBlockMap = none) := by
  decide

/-- C8.  Interior culling: a solid block all six of whose neighbors are
present in the block map produces no mesh and emits no face. -/
theorem c8_interior_culling (m : List (IVec3 × Block)) (p : IVec3)
    (b : Block) (hs : lookupA p m = some b)
    (hbur : ∀ q ∈ surrounding p, lookupA q m ≠ none) :
    meshFor m p = none ∧ emittedDirs m p = [] := by
  have hb : buriedB m p = true := by
    rw [buriedB, List.all_eq_true]
    intro q hq
    simpa [Option.isSome_iff_ne_none] using hbur q hq
  unfold emittedDirs meshFor
  rw [hs]
  dsimp only
  rw [if_neg (by simp [hb])]
  exact ⟨rfl, rfl⟩

/-- Witness for C8 at a concrete input: the center of the seven-block map. -/
theorem c8_interior_culling_witness :
    meshFor sevenBlockMap ⟨0, 0, 0⟩ = none ∧
      emittedDirs sevenBlockMap ⟨0, 0, 0⟩ = [] :=
  c8_interior_culling sevenBlockMap ⟨0, 0, 0⟩ (Block.new BlockType.Stone)
    (by decide) (by decide)

/-- C5 (amended).  For a region holding exactly one solid block p, extraction
emits for p the full cube mesh: 24 vertices and 36 indices (six quads), with
index buffer the fixed block_indices list; the first face follows the fan
pattern {0,1,3,3,1,2}, but later faces address the shared first eight
vertices rather than their own four-vertex group (see c5_counterexample). -/
theorem c5_single_block_mesh (p : IVec3) (b : BlockType)
    (hb : b ≠ BlockType.Air) :
    meshFor [(p, Block.new b)] p =
      some ⟨block_vertices (asVec3 p), normalsList, uv_coords b,
        block_indices⟩ ∧
      (block_vertices (asVec3 p)).length = 24 ∧
      block_indices.length = 36 ∧
      block_indices.take 6 = [0, 1, 3, 3, 1, 2] := by
  have hq : ∀ q ∈ surrounding p, lookupA q [(p, Block.new b)] = none := by
    intro q hq
    simp only [surrounding, List.mem_cons, List.not_mem_nil, or_false]
      at hq
    have hqp : q ≠ p := by
      rcases hq with rfl | rfl | rfl | rfl | rfl | rfl <;>
        · intro heq
          have hx := congrArg IVec3.x heq
          have hy := congrArg IVec3.y heq
          have hz := congrArg IVec3.z heq
          dsimp only at hx hy hz
          omega
    simp [lookupA, hqp]
  have hbur : buriedB [(p, Block.new b)] p = false :=
    (buriedB_false_iff _ p).mpr
      ⟨⟨p.x - 1, p.y, p.z⟩, by simp [surrounding],
        hq ⟨p.x - 1, p.y, p.z⟩ (by simp [surrounding])⟩
  refine ⟨?_, rfl, rfl, rfl⟩
  unfold meshFor
  rw [show lookupA p [(p, Block.new b)] = some (Block.new b) from by
    simp [lookupA]]
  dsimp only
  rw [if_pos ⟨hb, by simp [hbur]⟩]
  rfl

/-- Witness for C5 at a concrete input: a grass block at the origin. -/
theorem c5_single_block_mesh_witness :
    BlockType.Grass ≠ BlockType.Air ∧
      (meshFor oneBlockMap ⟨0, 0, 0⟩ = some oneBlockMesh ∧
        (block_vertices (asVec3 ⟨0, 0, 0⟩)).length = 24 ∧
        block_indices.length = 36 ∧
        block_indices.take 6 = [0, 1, 3, 3, 1, 2]) :=
  ⟨by decide, c5_single_block_mesh ⟨0, 0, 0⟩ BlockType.Grass (by decide)⟩

/-- C5 counterexample.  The emitted index buffer of the isolated block is the
fixed block_indices list, and that list does not follow the claimed per-face
fan pattern: its second face reads {1,5,2,2,5,6}, not 4 + {0,1,3,3,1,2}. -/
theorem c5_counterexample :
    (meshFor oneBlockMap ⟨0, 0, 0⟩).map BMesh.indices = some block_indices ∧
      ¬ FanPattern block_indices := by
  constructor
  · rfl
  · intro hf
    have := hf 1 (by omega) 0 (by omega)
    simp [block_indices] at this

/-- C10.  Every mesh extraction produces references only the first eight of
its 24 vertices (all 36 indices are below 8), every vertex position differs
from the block position by exactly one unit on each axis (so the cube spans
two units per side), while the spawn translations of two adjacent blocks are
only one unit apart. -/
theorem c10_mesh_geometry (m : List (IVec3 × Block)) (p : IVec3) (bm : BMesh)
    (h : meshFor m p = some bm) :
    (∀ i ∈ bm.indices, i < 8) ∧
      (∀ v ∈ bm.positions,
        (v.1 = (p.x : ℚ) - 1 ∨ v.1 = (p.x : ℚ) + 1) ∧
        (v.2.1 = (p.y : ℚ) - 1 ∨ v.2.1 = (p.y : ℚ) + 1) ∧
        (v.2.2 = (p.z : ℚ) - 1 ∨ v.2.2 = (p.z : ℚ) + 1)) ∧
      (∀ d : Dir, dist1Q (spawnTranslation (addv p (step d)))
        (spawnTranslation p) = 1) := by
  unfold meshFor at h
  rcases hl : lookupA p m with _ | b
  · rw [hl] at h
    exact absurd h (by simp)
  · rw [hl] at h
    dsimp only at h
    by_cases hc : b.btype ≠ BlockType.Air ∧ ¬ buriedB m p
    · rw [if_pos hc] at h
      injection h with h2
      subst h2
      refine ⟨(by decide : ∀ i ∈ block_indices, i < 8), ?_, ?_⟩
      · intro v hv
        simp only [block_vertices, asVec3, List.mem_cons, List.not_mem_nil,
          or_false] at hv
        rcases hv with rfl | rfl | rfl | rfl | rfl | rfl | rfl | rfl | rfl |
          rfl | rfl | rfl | rfl | rfl | rfl | rfl | rfl | rfl | rfl | rfl |
          rfl | rfl | rfl | rfl <;>
          exact ⟨by first | exact Or.inl rfl | exact Or.inr rfl,
            by first | exact Or.inl rfl | exact Or.inr rfl,
            by first | exact Or.inl rfl | exact Or.inr rfl⟩
      · intro d
        cases d <;>
          · simp only [dist1Q, spawnTranslation, asVec3, addv, step]
            push_cast
            norm_num
    · rw [if_neg hc] at h
      exact absurd h (by simp)

/-- Witness for C10 at a concrete input: the isolated grass block mesh. -/
theorem c10_mesh_geometry_witness :
    meshFor oneBlockMap ⟨0, 0, 0⟩ = some oneBlockMesh ∧
      ∀ i ∈ oneBlockMesh.indices, i < 8 :=
  ⟨rfl, (c10_mesh_geometry oneBlockMap ⟨0, 0, 0⟩ oneBlockMesh rfl).1⟩

theorem lookupA_filter_of_none {α β : Type} [DecidableEq α] (k : α)
    (p : α → Bool) (l : List (α × β)) (h : lookupA k l = none) :
    lookupA k (l.filter (fun e => p e.1)) = none := by
  by_cases hp : p k
  · rw [lookupA_filter_keep k p l hp]
    exact h
  · exact lookupA_filter_drop k p l (Bool.of_not_eq_true hp)

theorem demoteKey_chunks_none {st : GameMap} {c : IVec2} (k : IVec2)
    (h : lookupA c st.chunks = none) :
    lookupA c (demoteKey st k).chunks = none := by
  unfold demoteKey
  by_cases h1 : (lookupA k st.cache).isSome
  · rwa [if_pos h1]
  · rw [if_neg h1]
    rcases h2 : lookupA k st.chunks with _ | ch
    · exact h
    · simp only [demoteRemovePhase, demoteInsertPhase]
      rw [lookupA_removeA]
      by_cases h3 : c = k
      · rw [if_pos h3]
      · rw [if_neg h3]
        exact h

theorem demoteKey_exclusive {st : GameMap} (k : IVec2) (h : ExclusiveS st) :
    ExclusiveS (demoteKey st k) := by
  unfold demoteKey
  by_cases h1 : (lookupA k st.cache).isSome
  · rwa [if_pos h1]
  · rw [if_neg h1]
    rcases h2 : lookupA k st.chunks with _ | ch
    · exact h
    · intro c hc
      simp only [demoteRemovePhase, demoteInsertPhase] at hc ⊢
      rw [lookupA_removeA] at hc
      by_cases h3 : c = k
      · rw [if_pos h3] at hc
        exact absurd rfl hc
      · rw [if_neg h3] at hc
        rw [lookupA_insertA, if_neg h3]
        exact h c hc

theorem demote_fold_exclusive (l : List IVec2) (st : GameMap)
    (h : ExclusiveS st) : ExclusiveS (l.foldl demoteKey st) := by
  induction l generalizing st with
  | nil => exact h
  | cons k rest ih => exact ih _ (demoteKey_exclusive k h)

theorem retainStep_exclusive (pos : ℚ × ℚ) (st : GameMap)
    (h : ExclusiveS st) : ExclusiveS (retainStep pos st) := by
  intro c hc
  simp only [retainStep] at hc ⊢
  exact lookupA_filter_of_none c (fun x => decide (¬ isFarRetain pos x))
    st.cache (h c hc)

theorem loadKey_exclusive {gen : IVec2 → List (IVec3 × Block)}
    {st : GameMap} (k : IVec2) (h : ExclusiveS st) :
    ExclusiveS (loadKey gen st k) := by
  unfold loadKey
  by_cases h1 : k.x < 0 ∨ k.y < 0
  · rwa [if_pos h1]
  · rw [if_neg h1]
    by_cases h2 : (lookupA k st.chunks).isSome
    · rwa [if_pos h2]
    · rw [if_neg h2]
      rcases h3 : lookupA k st.cache with _ | ch
      · intro c hc
        dsimp only at hc ⊢
        rw [lookupA_insertA] at hc
        by_cases h4 : c = k
        · subst h4
          exact h3
        · rw [if_neg h4] at hc
          exact h c hc
      · intro c hc
        dsimp only at hc ⊢
        rw [lookupA_insertA] at hc
        rw [lookupA_removeA]
        by_cases h4 : c = k
        · rw [if_pos h4]
        · rw [if_neg h4] at hc
          rw [if_neg h4]
          exact h c hc

theorem load_fold_exclusive (gen : IVec2 → List (IVec3 × Block))
    (l : List IVec2) (st : GameMap) (h : ExclusiveS st) :
    ExclusiveS (l.foldl (loadKey gen) st) := by
  induction l generalizing st with
  | nil => exact h
  | cons k rest ih => exact ih _ (loadKey_exclusive k h)

theorem loadKey_other (gen : IVec2 → List (IVec3 × Block)) (st : GameMap)
    {k c : IVec2} (hne : c ≠ k) :
    lookupA c (loadKey gen st k).chunks = lookupA c st.chunks ∧
      lookupA c (loadKey gen st k).cache = lookupA c st.cache := by
  unfold loadKey
  by_cases h1 : k.x < 0 ∨ k.y < 0
  · rw [if_pos h1]
    exact ⟨rfl, rfl⟩
  · rw [if_neg h1]
    by_cases h2 : (lookupA k st.chunks).isSome
    · rw [if_pos h2]
      exact ⟨rfl, rfl⟩
    · rw [if_neg h2]
      rcases h3 : lookupA k st.cache with _ | ch
      · dsimp only
        rw [lookupA_insertA, if_neg hne]
        exact ⟨rfl, rfl⟩
      · dsimp only
        rw [lookupA_insertA, if_neg hne, lookupA_removeA, if_neg hne]
        exact ⟨rfl, rfl⟩

theorem load_fold_other (gen : IVec2 → List (IVec3 × Block)) (c : IVec2)
    (l : List IVec2) (st : GameMap) (hl : ∀ k ∈ l, k ≠ c) :
    lookupA c (l.foldl (loadKey gen) st).chunks = lookupA c st.chunks ∧
      lookupA c (l.foldl (loadKey gen) st).cache = lookupA c st.cache := by
  induction l generalizing st with
  | nil => exact ⟨rfl, rfl⟩
  | cons k rest ih =>
    have hne : c ≠ k := (hl k (List.mem_cons_self ..)).symm
    obtain ⟨ha, hb⟩ := loadKey_other gen st hne
    obtain ⟨hc2, hd⟩ := ih _ (fun k2 hk2 => hl k2 (List.mem_cons_of_mem _ hk2))
    exact ⟨hc2.trans ha, hd.trans hb⟩

theorem demote_fold_chunks_none (c : IVec2) (l : List IVec2) (st : GameMap)
    (h : lookupA c st.chunks = none ∨
      (lookupA c st.cache = none ∧ c ∈ l)) :
    lookupA c (l.foldl demoteKey st).chunks = none := by
  induction l generalizing st with
  | nil =>
    rcases h with h | ⟨_, hmem⟩
    · exact h
    · exact absurd hmem (List.not_mem_nil c)
  | cons k rest ih =>
    rcases h with h | ⟨hcache, hmem⟩
    · exact ih _ (Or.inl (demoteKey_chunks_none k h))
    · by_cases hk : c = k
      · subst hk
        apply ih
        apply Or.inl
        unfold demoteKey
        rw [if_neg (by simp [hcache])]
        rcases h2 : lookupA c st.chunks with _ | ch
        · exact h2
        · simp only [demoteRemovePhase, demoteInsertPhase]
          rw [lookupA_removeA, if_pos rfl]
      · rcases List.mem_cons.mp hmem with heq | hrest
        · exact absurd heq hk
        · apply ih
          right
          refine ⟨?_, hrest⟩
          unfold demoteKey
          by_cases h1 : (lookupA k st.cache).isSome
          · rw [if_pos h1]
            exact hcache
          · rw [if_neg h1]
            rcases h2 : lookupA k st.chunks with _ | ch
            · exact hcache
            · simp only [demoteRemovePhase, demoteInsertPhase]
              rw [lookupA_insertA, if_neg hk]
              exact hcache

theorem demoteStep_chunks_none (pos : ℚ × ℚ) (st : GameMap) (c : IVec2)
    (hex : ExclusiveS st) (hfar : isFarDemote pos c) :
    lookupA c (demoteStep pos st).chunks = none := by
  unfold demoteStep
  rcases h : lookupA c st.chunks with _ | ch
  · exact demote_fold_chunks_none c _ st (Or.inl h)
  · apply demote_fold_chunks_none c _ st
    right
    refine ⟨hex c (by simp [h]), ?_⟩
    unfold farChunkKeys
    rw [List.mem_filter]
    exact ⟨lookupA_mem_keys c st.chunks (by simp [h]), decide_eq_true hfar⟩

theorem retainStep_cache_none (pos : ℚ × ℚ) (st : GameMap) (c : IVec2)
    (hfar : isFarRetain pos c) :
    lookupA c (retainStep pos st).cache = none := by
  unfold retainStep
  dsimp only
  exact lookupA_filter_drop c (fun x => decide (¬ isFarRetain pos x))
    st.cache (decide_eq_false (not_not_intro hfar))

theorem axisBound (a : ℚ) (δ : ℤ) (h1 : -32 ≤ δ) (h2 : δ ≤ 32) :
    (((⌊a / 32⌋ * 32 + δ : ℤ) : ℚ) - a) ^ 2 < 4608 := by
  have h32 : (0 : ℚ) < 32 := by norm_num
  have hfl := Int.floor_le (a / 32)
  have hfl2 := Int.lt_floor_add_one (a / 32)
  have hl : ((⌊a / 32⌋ : ℤ) : ℚ) * 32 ≤ a := by
    have := (le_div_iff₀ h32).mp hfl
    linarith
  have hu : a < ((⌊a / 32⌋ : ℤ) : ℚ) * 32 + 32 := by
    have := (div_lt_iff₀ h32).mp hfl2
    push_cast at this ⊢
    linarith
  have hd1 : ((δ : ℤ) : ℚ) ≤ 32 := by exact_mod_cast h2
  have hd2 : (-32 : ℚ) ≤ ((δ : ℤ) : ℚ) := by exact_mod_cast h1
  have hcast : ((⌊a / 32⌋ * 32 + δ : ℤ) : ℚ) =
      ((⌊a / 32⌋ : ℤ) : ℚ) * 32 + ((δ : ℤ) : ℚ) := by
    push_cast
    ring
  rw [hcast]
  nlinarith [sq_nonneg (((⌊a / 32⌋ : ℤ) : ℚ) * 32 + ((δ : ℤ) : ℚ) - a)]

theorem candList_close (pos : ℚ × ℚ) (c : IVec2)
    (hc : c ∈ candList (playerChunkPos pos)) : distSq c pos < 9216 := by
  have b0 : ∀ a : ℚ, (((⌊a / 32⌋ * 32 : ℤ) : ℚ) - a) ^ 2 < 4608 := fun a => by
    simpa using axisBound a 0 (by norm_num) (by norm_num)
  have bp : ∀ a : ℚ, (((⌊a / 32⌋ * 32 + 32 : ℤ) : ℚ) - a) ^ 2 < 4608 :=
    fun a => axisBound a 32 (by norm_num) (by norm_num)
  have bm : ∀ a : ℚ, (((⌊a / 32⌋ * 32 - 32 : ℤ) : ℚ) - a) ^ 2 < 4608 :=
    fun a => by
      simpa [sub_eq_add_neg] using axisBound a (-32) (by norm_num) (by norm_num)
  simp only [candList, playerChunkPos, List.mem_cons, List.not_mem_nil,
    or_false] at hc
  rcases hc with rfl | rfl | rfl | rfl | rfl | rfl | rfl | rfl | rfl <;>
    · simp only [distSq]
      have t1 := b0 pos.1
      have t2 := bp pos.1
      have t3 := bm pos.1
      have t4 := b0 pos.2
      have t5 := bp pos.2
      have t6 := bm pos.2
      linarith

theorem playerChunkPos_zero : playerChunkPos ((0 : ℚ), (0 : ℚ)) = ⟨0, 0⟩ := by
  simp [playerChunkPos]

theorem demoteKey_preserve_cached {st : GameMap} {c : IVec2} {ch : Chunk}
    (k : IVec2) (h1 : lookupA c st.chunks = none)
    (h2 : lookupA c st.cache = some ch) :
    lookupA c (demoteKey st k).chunks = none ∧
      lookupA c (demoteKey st k).cache = some ch := by
  unfold demoteKey
  by_cases ha : (lookupA k st.cache).isSome
  · rw [if_pos ha]
    exact ⟨h1, h2⟩
  · rw [if_neg ha]
    rcases hb : lookupA k st.chunks with _ | ch2
    · exact ⟨h1, h2⟩
    · have hne : c ≠ k := by
        intro heq
        subst heq
        rw [h1] at hb
        exact absurd hb (by simp)
      simp only [demoteRemovePhase, demoteInsertPhase]
      rw [lookupA_removeA, if_neg hne, lookupA_insertA, if_neg hne]
      exact ⟨h1, h2⟩

theorem demote_fold_preserve_cached (c : IVec2) (ch : Chunk)
    (l : List IVec2) (st : GameMap) (h1 : lookupA c st.chunks = none)
    (h2 : lookupA c st.cache = some ch) :
    lookupA c (l.foldl demoteKey st).chunks = none ∧
      lookupA c (l.foldl demoteKey st).cache = some ch := by
  induction l generalizing st with
  | nil => exact ⟨h1, h2⟩
  | cons k rest ih =>
    obtain ⟨ha, hb⟩ := demoteKey_preserve_cached k h1 h2
    exact ih _ ha hb

theorem load_fold_reach (gen : IVec2 → List (IVec3 × Block)) (c : IVec2)
    (ch : Chunk) (l : List IVec2) (st : GameMap) (hx : 0 ≤ c.x)
    (hy : 0 ≤ c.y)
    (h : (lookupA c st.chunks = none ∧ lookupA c st.cache = some ch ∧
        c ∈ l) ∨
      (∃ n, lookupA c st.chunks = some ⟨n, ch.blocks, ch.position⟩)) :
    ∃ n, lookupA c (l.foldl (loadKey gen) st).chunks =
      some ⟨n, ch.blocks, ch.position⟩ := by
  induction l generalizing st with
  | nil =>
    rcases h with ⟨_, _, hmem⟩ | h
    · exact absurd hmem (List.not_mem_nil c)
    · exact h
  | cons k rest ih =>
    rcases h with ⟨hch, hca, hmem⟩ | ⟨n, hn⟩
    · by_cases hk : c = k
      · subst hk
        apply ih
        right
        refine ⟨st.nextId, ?_⟩
        have hstep : loadKey gen st c =
            { chunks := insertA c (cloneChunk ch st.nextId) st.chunks
              cache := removeA c st.cache
              nextId := st.nextId + 1 } := by
          unfold loadKey
          rw [if_neg (by omega), if_neg (by simp [hch]), hca]
        rw [hstep]
        dsimp only
        rw [lookupA_insertA, if_pos rfl]
        rfl
      · rcases List.mem_cons.mp hmem with heq | hrest
        · exact absurd heq hk
        · obtain ⟨ha, hb⟩ := loadKey_other gen st hk
          exact ih _ (Or.inl ⟨ha.trans hch, hb.trans hca, hrest⟩)
    · apply ih
      right
      by_cases hk : c = k
      · subst hk
        refine ⟨n, ?_⟩
        have hstep : loadKey gen st c = st := by
          unfold loadKey
          by_cases hneg : c.x < 0 ∨ c.y < 0
          · rw [if_pos hneg]
          · rw [if_neg hneg, if_pos (by simp [hn])]
        rw [hstep]
        exact hn
      · obtain ⟨ha, _⟩ := loadKey_other gen st hk
        exact ⟨n, ha.trans hn⟩

/-- C3 (amended).  Exclusivity of the active and cache maps is an invariant
of whole update_world steps: if no coordinate is in both maps before a step,
none is after it (and after each completed per-key transition inside it).
The original claim also asserts exclusivity at every instant inside a step,
which fails between cache.insert and chunks.remove of a demotion; see
c3_counterexample. -/
theorem c3_exclusive_preserved (gen : IVec2 → List (IVec3 × Block))
    (pos : ℚ × ℚ) (st : GameMap) (hex : ExclusiveS st) :
    ExclusiveS (update_world gen pos st) :=
  load_fold_exclusive gen _ _
    (retainStep_exclusive pos _ (demote_fold_exclusive _ st hex))

/-- Witness for C3 at a concrete input: one step from the empty state. -/
theorem c3_exclusive_preserved_witness :
    ExclusiveS (update_world genZero ((0 : ℚ), (0 : ℚ)) emptyState) :=
  c3_exclusive_preserved genZero ((0 : ℚ), (0 : ℚ)) emptyState
    (fun _ h => absurd rfl h)

/-- C3 counterexample.  Inside an update_world step the demotion of one far
key runs cache.insert (world.rs line 468) before chunks.remove (line 469):
starting from the exclusive state farState with camera at the origin, the key
(128, 0) is selected for demotion, and the intermediate state after the
insert phase holds the coordinate in both maps at once, refuting exclusivity
at every point during the step. -/
theorem c3_counterexample :
    ExclusiveS farState ∧
      ⟨128, 0⟩ ∈ farChunkKeys ((0 : ℚ), (0 : ℚ)) farState ∧
      demoteKey farState ⟨128, 0⟩ =
        demoteRemovePhase ⟨128, 0⟩
          (demoteInsertPhase ⟨128, 0⟩ farChunk farState) ∧
      lookupA ⟨128, 0⟩
        (demoteInsertPhase ⟨128, 0⟩ farChunk farState).chunks ≠ none ∧
      lookupA ⟨128, 0⟩
        (demoteInsertPhase ⟨128, 0⟩ farChunk farState).cache ≠ none := by
  refine ⟨fun k h => rfl, ?_, by decide, by decide, by decide⟩
  unfold farChunkKeys
  have hf : isFarDemote ((0 : ℚ), (0 : ℚ)) (IVec2.mk 128 0) := by
    norm_num [isFarDemote, demoteRadius, distSq, CHUNK_SIZE, RENDER_DISTANCE]
  simp [farState]
  exact hf

/-- C9 (amended).  The code has a single radius, CHUNK_SIZE * RENDER_DISTANCE
= 96 world units of euclidean camera distance, used both to demote active
chunks and to retain cached ones (so there is no separate larger cache
radius; see c9_counterexample).  After one update_world step from an
exclusive state, a coordinate beyond that radius, in particular any chunk at
Chebyshev distance at least 4 chunks from the observer chunk, is in neither
the active map nor the cache. -/
theorem c9_far_regions_absent (gen : IVec2 → List (IVec3 × Block))
    (pos : ℚ × ℚ) (st : GameMap) (c : IVec2) (hex : ExclusiveS st)
    (hfar : demoteRadius ^ 2 < distSq c pos) :
    lookupA c (update_world gen pos st).chunks = none ∧
      lookupA c (update_world gen pos st).cache = none := by
  have hfarD : isFarDemote pos c := hfar
  have hfarR : isFarRetain pos c := hfar
  have h1 : lookupA c (demoteStep pos st).chunks = none :=
    demoteStep_chunks_none pos st c hex hfarD
  have h2 : lookupA c (retainStep pos (demoteStep pos st)).chunks = none := h1
  have h3 : lookupA c (retainStep pos (demoteStep pos st)).cache = none :=
    retainStep_cache_none pos _ c hfarR
  have h92 : demoteRadius ^ 2 = (9216 : ℚ) := by
    norm_num [demoteRadius, CHUNK_SIZE, RENDER_DISTANCE]
  have hl : ∀ k2 ∈ (candList (playerChunkPos pos)).filter
      (fun c2 =>
        !(lookupA c2 (retainStep pos (demoteStep pos st)).chunks).isSome),
      k2 ≠ c := by
    intro k2 hk2 heq
    subst heq
    have hclose := candList_close pos k2 (List.mem_filter.mp hk2).1
    rw [h92] at hfar
    linarith
  unfold update_world loadStep
  obtain ⟨ha, hb⟩ := load_fold_other gen c _ _ hl
  exact ⟨ha.trans h2, hb.trans h3⟩

/-- The concrete far coordinate used by the C9 witness. -/
theorem farPoint_far :
    demoteRadius ^ 2 < distSq ⟨200, 0⟩ ((0 : ℚ), (0 : ℚ)) := by
  norm_num [demoteRadius, distSq, CHUNK_SIZE, RENDER_DISTANCE]

/-- Witness for C9 at a concrete input: the coordinate (200, 0) lies beyond
96 world units of the origin camera and ends in neither map. -/
theorem c9_far_regions_absent_witness :
    demoteRadius ^ 2 < distSq ⟨200, 0⟩ ((0 : ℚ), (0 : ℚ)) ∧
      lookupA ⟨200, 0⟩
        (update_world genZero ((0 : ℚ), (0 : ℚ)) emptyState).chunks = none ∧
      lookupA ⟨200, 0⟩
        (update_world genZero ((0 : ℚ), (0 : ℚ)) emptyState).cache = none :=
  ⟨farPoint_far,
    (c9_far_regions_absent genZero ((0 : ℚ), (0 : ℚ)) emptyState ⟨200, 0⟩
      (fun _ h => absurd rfl h) farPoint_far).1,
    (c9_far_regions_absent genZero ((0 : ℚ), (0 : ℚ)) emptyState ⟨200, 0⟩
      (fun _ h => absurd rfl h) farPoint_far).2⟩

/-- C9 counterexample.  The claim presupposes a cache radius strictly larger
than the active radius; in the code the retain threshold of the cache
(world.rs line 476) and the demotion threshold (line 459) are the same
CHUNK_SIZE * RENDER_DISTANCE expression, so no configuration with
R2 greater than R exists. -/
theorem c9_counterexample : ¬ (demoteRadius < retainRadius) :=
  lt_irrefl demoteRadius

/-- C7 (amended).  Re-activating a coordinate that is resident in the cache
performs no regeneration: for every generator gen, the chunk that becomes
active has exactly the cached blocks and position (the generator is never
consulted).  It is however not reference-identical to the cached object: the
code clones on this path (world.rs line 524), modelled by the fresh identity
n; see c7_counterexample, which also notes that demotion and eviction share
one radius, so a state with a nonempty cache is not reachable from an empty
cache at step boundaries. -/
theorem c7_reactivation_no_regen (gen : IVec2 → List (IVec3 × Block))
    (pos : ℚ × ℚ) (st : GameMap) (c : IVec2) (ch : Chunk)
    (hcache : lookupA c st.cache = some ch)
    (hchunks : lookupA c st.chunks = none)
    (hcand : c ∈ candList (playerChunkPos pos))
    (hx : 0 ≤ c.x) (hy : 0 ≤ c.y) :
    ∃ n, lookupA c (update_world gen pos st).chunks =
      some ⟨n, ch.blocks, ch.position⟩ := by
  have hnear : distSq c pos < 9216 := candList_close pos c hcand
  have h92 : retainRadius ^ 2 = (9216 : ℚ) := by
    norm_num [retainRadius, CHUNK_SIZE, RENDER_DISTANCE]
  obtain ⟨hd1, hd2⟩ :=
    demote_fold_preserve_cached c ch (farChunkKeys pos st) st hchunks hcache
  have hr1 : lookupA c (retainStep pos (demoteStep pos st)).chunks = none :=
    hd1
  have hr2 : lookupA c (retainStep pos (demoteStep pos st)).cache =
      some ch := by
    unfold retainStep
    dsimp only
    rw [lookupA_filter_keep c (fun x => decide (¬ isFarRetain pos x)) _
      (decide_eq_true (by
        rw [isFarRetain, h92]
        exact not_lt.mpr (le_of_lt hnear)))]
    exact hd2
  unfold update_world loadStep
  apply load_fold_reach gen c ch _ _ hx hy
  left
  refine ⟨hr1, hr2, ?_⟩
  rw [List.mem_filter]
  exact ⟨hcand, by simp [hr1]⟩

/-- Witness for C7 at a concrete input: cachedState with the camera at the
origin. -/
theorem c7_reactivation_no_regen_witness :
    ∃ n, lookupA ⟨0, 0⟩
        (update_world genZero ((0 : ℚ), (0 : ℚ)) cachedState).chunks =
      some ⟨n, cachedChunk.blocks, cachedChunk.position⟩ :=
  c7_reactivation_no_regen genZero ((0 : ℚ), (0 : ℚ)) cachedState ⟨0, 0⟩
    cachedChunk rfl rfl (by rw [playerChunkPos_zero]; decide) (by decide)
    (by decide)

/-- C7 counterexample.  Re-activation from the cache yields a clone, not the
identical object: from cachedState (cached chunk with identity 0) the
update_world step with the camera at the origin installs the chunk with the
fresh identity 1 and the same contents, so the resulting active region is not
the region that was demoted. -/
theorem c7_counterexample :
    lookupA ⟨0, 0⟩
        (update_world genZero ((0 : ℚ), (0 : ℚ)) cachedState).chunks =
      some (cloneChunk cachedChunk 1) ∧
      cloneChunk cachedChunk 1 ≠ cachedChunk := by
  constructor
  · have hd : demoteStep ((0 : ℚ), (0 : ℚ)) cachedState = cachedState := rfl
    have hkeep : (decide (¬ isFarRetain ((0 : ℚ), (0 : ℚ))
        (IVec2.mk 0 0))) = true :=
      decide_eq_true (by
        norm_num [isFarRetain, retainRadius, distSq, CHUNK_SIZE,
          RENDER_DISTANCE])
    have hfil : cachedState.cache.filter
        (fun e => decide (¬ isFarRetain ((0 : ℚ), (0 : ℚ)) e.1)) =
        cachedState.cache := by
      simp only [cachedState, List.filter_cons, List.filter_nil, hkeep,
        if_true]
    have hr : retainStep ((0 : ℚ), (0 : ℚ)) cachedState = cachedState := by
      unfold retainStep
      rw [hfil]
    unfold update_world
    rw [hd, hr]
    unfold loadStep
    rw [playerChunkPos_zero]
    decide
  · decide

/-- C2 (code bug).  The load path special-cases negative coordinates: any
candidate chunk with a negative x or z component is skipped (world.rs lines
517-520, a workaround for the usize-indexed noise map), so world blocks with
negative coordinates never belong to a loaded region.  With the camera at
the origin, the candidate (-32, -32) is in the desired nine-chunk
neighborhood yet ends in neither map, while the non-negative candidate
(0, 0) is loaded. -/
theorem c2_negative_region_skipped :
    IVec2.mk (-32) (-32) ∈ candList (playerChunkPos ((0 : ℚ), (0 : ℚ))) ∧
      lookupA ⟨-32, -32⟩
        (update_world genZero ((0 : ℚ), (0 : ℚ)) emptyState).chunks = none ∧
      lookupA ⟨-32, -32⟩
        (update_world genZero ((0 : ℚ), (0 : ℚ)) emptyState).cache = none ∧
      lookupA ⟨0, 0⟩
        (update_world genZero ((0 : ℚ), (0 : ℚ)) emptyState).chunks ≠
        none := by
  have hd : demoteStep ((0 : ℚ), (0 : ℚ)) emptyState = emptyState := rfl
  have hr : retainStep ((0 : ℚ), (0 : ℚ)) emptyState = emptyState := rfl
  refine ⟨?_, ?_, ?_, ?_⟩
  · rw [playerChunkPos_zero]
    decide
  · unfold update_world
    rw [hd, hr]
    unfold loadStep
    rw [playerChunkPos_zero]
    decide
  · unfold update_world
    rw [hd, hr]
    unfold loadStep
    rw [playerChunkPos_zero]
    decide
  · unfold update_world
    rw [hd, hr]
    unfold loadStep
    rw [playerChunkPos_zero]
    decide

end MC
